import Mathlib

/-!
Verification of the deduplication core of the `ip_counter` repository
(`most_effective_solution.go`).  The Go program counts distinct IPv4
addresses in a newline-delimited stream: an address codec `ipToInt`,
a `SegmentedBitmap` presence structure with a `MarkIP` test-and-set
operation, batch processing (`processBatch`), a line reader
(`readBatch`) and the orchestrating `countUniqueIPs`.

The embedding below translates each Go function into a Lean function.
Go `uint32` arithmetic becomes `Nat` arithmetic with explicit `% 2 ^ 32`
wrap; Go `uint64` shift counts wrap at `% 2 ^ 64`.  The concurrent
pipeline is linearized: batches are processed one after the other, which
is adequate because every claim about the pipeline is about its
interleaving-independent outcome.
-/

/-- Go constant `BatchSize`: number of lines per batch. -/
def BatchSize : Nat := 250000

/-- Go constant `WorkerCount`. -/
def WorkerCount : Nat := 8

/-- Go constant `MaxIP = 1 << 32`: size of the IPv4 address space. -/
def MaxIP : Nat := 1 <<< 32

/-- Go constant `BitmapSegments`: number of bitmap segments. -/
def BitmapSegments : Nat := 256

/-- Go constant `BitsInByte`. -/
def BitsInByte : Nat := 8

/-- Go constant `BytesPerSegment = MaxIP / BitmapSegments / BitsInByte`. -/
def BytesPerSegment : Nat := MaxIP / BitmapSegments / BitsInByte

/-- Model of Go `strings.Split(s, ".")` on the character list of `s`:
split at every `'.'`, keeping empty pieces, one piece more than there
are dots. -/
def splitDot : List Char → List (List Char)
  | [] => [[]]
  | c :: rest =>
    if c = '.' then [] :: splitDot rest
    else
      match splitDot rest with
      | [] => [[c]]
      | s :: ss => (c :: s) :: ss

/-- Model of Go `uint32(c - '0')` for a rune `c`: the two's-complement
difference reduced modulo `2 ^ 32`. -/
def goDigit (c : Char) : Nat := (c.toNat + 2 ^ 32 - 48) % 2 ^ 32

/-- Inner loop of `ipToInt`: `value = value*10 + uint32(c-'0')` over the
runes of one octet segment, in wrapping `uint32` arithmetic. -/
def segValue (seg : List Char) : Nat :=
  seg.foldl (fun value c => (value * 10 + goDigit c) % 2 ^ 32) 0

/-- Shift amount `BitsInByte * uint(3-i)` from `ipToInt`: the Go `int`
value `3 - i` converted to `uint64` (wrapping), times 8, in `uint64`. -/
def ipShift (i : Nat) : Nat :=
  (BitsInByte * (((3 - (i : Int)) % (2 ^ 64 : Int)).toNat)) % 2 ^ 64

/-- Outer loop of `ipToInt`: `result += value << (BitsInByte * uint(3-i))`
over the indexed segments, in wrapping `uint32` arithmetic.  A `uint32`
left shift by `s` equals multiplication by `2 ^ s` modulo `2 ^ 32`
(zero whenever `s ≥ 32`, exactly as in Go). -/
def ipFold : Nat → List (List Char) → Nat → Nat
  | _, [], result => result
  | i, seg :: rest, result =>
    ipFold (i + 1) rest ((result + segValue seg * 2 ^ ipShift i % 2 ^ 32) % 2 ^ 32)

/-- Go `ipToInt`: split the line at dots, decode every segment with the
unchecked `value*10 + (c-'0')` loop, and pack big-endian. -/
def ipToInt (ip : String) : Nat := ipFold 0 (splitDot ip.data) 0

/-- Decimal digit test used by the well-formedness predicate:
`'0' ≤ c ≤ '9'`. -/
def isDigitChar (c : Char) : Bool := decide (48 ≤ c.toNat) && decide (c.toNat ≤ 57)

/-- Exact (non-wrapping) decimal value of a digit string. -/
def decVal (seg : List Char) : Nat :=
  seg.foldl (fun v c => v * 10 + (c.toNat - 48)) 0

/-- A well-formed octet component: non-empty, all decimal digits, value
at most 255. -/
def validOctet (seg : List Char) : Bool :=
  !seg.isEmpty && seg.all isDigitChar && decide (decVal seg ≤ 255)

theorem splitDot_no_dot (xs : List Char) (h : '.' ∉ xs) : splitDot xs = [xs] := by
  induction xs with
  | nil => rfl
  | cons c rest ih =>
    have hc : ¬ c = '.' := fun hc => h (hc ▸ List.mem_cons_self c rest)
    have hrest : '.' ∉ rest := fun hm => h (List.mem_cons_of_mem c hm)
    simp [splitDot, hc, ih hrest]

theorem splitDot_append (xs ys : List Char) (h : '.' ∉ xs) :
    splitDot (xs ++ '.' :: ys) = xs :: splitDot ys := by
  induction xs with
  | nil => simp [splitDot]
  | cons c rest ih =>
    have hc : ¬ c = '.' := fun hc => h (hc ▸ List.mem_cons_self c rest)
    have hrest : '.' ∉ rest := fun hm => h (List.mem_cons_of_mem c hm)
    simp only [List.cons_append, splitDot, if_neg hc, List.append_eq, ih hrest]

theorem decVal_fold_ge (seg : List Char) :
    ∀ v : Nat, v ≤ seg.foldl (fun v c => v * 10 + (c.toNat - 48)) v := by
  induction seg with
  | nil => intro v; exact Nat.le_refl v
  | cons c rest ih =>
    intro v
    have h1 : v ≤ v * 10 + (c.toNat - 48) := by omega
    exact Nat.le_trans h1 (ih (v * 10 + (c.toNat - 48)))

theorem goDigit_of_digit (c : Char) (h : isDigitChar c = true) :
    goDigit c = c.toNat - 48 := by
  simp only [isDigitChar, Bool.and_eq_true, decide_eq_true_eq] at h
  have h48 : 48 ≤ c.toNat := h.1
  have h57 : c.toNat ≤ 57 := h.2
  unfold goDigit
  have he : c.toNat + 2 ^ 32 - 48 = (c.toNat - 48) + 2 ^ 32 := by omega
  rw [he, Nat.add_mod_right, Nat.mod_eq_of_lt (by omega)]

theorem segValue_fold_eq_decVal_fold (seg : List Char)
    (hdig : ∀ c ∈ seg, isDigitChar c = true) :
    ∀ v : Nat,
      seg.foldl (fun v c => v * 10 + (c.toNat - 48)) v < 2 ^ 32 →
      seg.foldl (fun value c => (value * 10 + goDigit c) % 2 ^ 32) v =
        seg.foldl (fun v c => v * 10 + (c.toNat - 48)) v := by
  induction seg with
  | nil => intro v _; simp only [List.foldl_nil]
  | cons c rest ih =>
    intro v hlt
    have hc : isDigitChar c = true := hdig c (List.mem_cons_self c rest)
    have hrest : ∀ x ∈ rest, isDigitChar x = true :=
      fun x hx => hdig x (List.mem_cons_of_mem c hx)
    simp only [List.foldl_cons] at hlt ⊢
    have hstep : v * 10 + (c.toNat - 48) ≤
        rest.foldl (fun v c => v * 10 + (c.toNat - 48)) (v * 10 + (c.toNat - 48)) :=
      decVal_fold_ge rest (v * 10 + (c.toNat - 48))
    have hv' : v * 10 + (c.toNat - 48) < 2 ^ 32 := Nat.lt_of_le_of_lt hstep hlt
    rw [goDigit_of_digit c hc, Nat.mod_eq_of_lt hv']
    exact ih hrest (v * 10 + (c.toNat - 48)) hlt

theorem segValue_eq_decVal (seg : List Char)
    (hdig : ∀ c ∈ seg, isDigitChar c = true) (hlt : decVal seg < 2 ^ 32) :
    segValue seg = decVal seg :=
  segValue_fold_eq_decVal_fold seg hdig 0 hlt

theorem digit_ne_dot (c : Char) (h : isDigitChar c = true) : ¬ c = '.' := by
  simp only [isDigitChar, Bool.and_eq_true, decide_eq_true_eq] at h
  intro hc
  subst hc
  simp at h

theorem validOctet_no_dot (seg : List Char) (h : validOctet seg = true) :
    '.' ∉ seg := by
  simp only [validOctet, Bool.and_eq_true, List.all_eq_true] at h
  intro hm
  exact digit_ne_dot '.' (h.1.2 '.' hm) rfl

/-- C4: `ipToInt` maps every well-formed dotted quad to the big-endian
packing `Σ octet[i] << (8 * (3 - i))`, and in particular
`ipToInt "192.168.0.1" = 3232235521`, `ipToInt "0.0.0.0" = 0`, and
`ipToInt "255.255.255.255" = 4294967295`. -/
theorem ipToInt_wellFormed_quad (s0 s1 s2 s3 : List Char)
    (h0 : validOctet s0 = true) (h1 : validOctet s1 = true)
    (h2 : validOctet s2 = true) (h3 : validOctet s3 = true) :
    ipToInt (String.mk (s0 ++ '.' :: (s1 ++ '.' :: (s2 ++ '.' :: s3)))) =
      decVal s0 * 2 ^ 24 + decVal s1 * 2 ^ 16 + decVal s2 * 2 ^ 8 + decVal s3 ∧
    ipToInt "192.168.0.1" = 3232235521 ∧
    ipToInt "0.0.0.0" = 0 ∧
    ipToInt "255.255.255.255" = 4294967295 := by
  refine ⟨?_, by decide, by decide, by decide⟩
  have hv0 : decVal s0 ≤ 255 := by
    simpa [validOctet, Bool.and_eq_true] using And.right (by simpa [validOctet, Bool.and_eq_true] using h0)
  have hv1 : decVal s1 ≤ 255 := by
    simpa [validOctet, Bool.and_eq_true] using And.right (by simpa [validOctet, Bool.and_eq_true] using h1)
  have hv2 : decVal s2 ≤ 255 := by
    simpa [validOctet, Bool.and_eq_true] using And.right (by simpa [validOctet, Bool.and_eq_true] using h2)
  have hv3 : decVal s3 ≤ 255 := by
    simpa [validOctet, Bool.and_eq_true] using And.right (by simpa [validOctet, Bool.and_eq_true] using h3)
  have hdig : ∀ s : List Char, validOctet s = true → ∀ c ∈ s, isDigitChar c = true := by
    intro s hs c hc
    simp only [validOctet, Bool.and_eq_true, List.all_eq_true] at hs
    exact hs.1.2 c hc
  have hsv0 : segValue s0 = decVal s0 :=
    segValue_eq_decVal s0 (hdig s0 h0) (by omega)
  have hsv1 : segValue s1 = decVal s1 :=
    segValue_eq_decVal s1 (hdig s1 h1) (by omega)
  have hsv2 : segValue s2 = decVal s2 :=
    segValue_eq_decVal s2 (hdig s2 h2) (by omega)
  have hsv3 : segValue s3 = decVal s3 :=
    segValue_eq_decVal s3 (hdig s3 h3) (by omega)
  have hsplit : splitDot (s0 ++ '.' :: (s1 ++ '.' :: (s2 ++ '.' :: s3))) =
      [s0, s1, s2, s3] := by
    rw [splitDot_append s0 _ (validOctet_no_dot s0 h0),
        splitDot_append s1 _ (validOctet_no_dot s1 h1),
        splitDot_append s2 _ (validOctet_no_dot s2 h2),
        splitDot_no_dot s3 (validOctet_no_dot s3 h3)]
  show ipFold 0 (splitDot (String.mk (s0 ++ '.' :: (s1 ++ '.' :: (s2 ++ '.' :: s3)))).data) 0 = _
  rw [show (String.mk (s0 ++ '.' :: (s1 ++ '.' :: (s2 ++ '.' :: s3)))).data =
      s0 ++ '.' :: (s1 ++ '.' :: (s2 ++ '.' :: s3)) from rfl, hsplit]
  simp only [ipFold, hsv0, hsv1, hsv2, hsv3]
  have e0 : ipShift 0 = 24 := by decide
  have e1 : ipShift 1 = 16 := by decide
  have e2 : ipShift 2 = 8 := by decide
  have e3 : ipShift 3 = 0 := by decide
  rw [e0, e1, e2, e3]
  have p24 : (2 : Nat) ^ 24 = 16777216 := by norm_num
  have p16 : (2 : Nat) ^ 16 = 65536 := by norm_num
  have p8 : (2 : Nat) ^ 8 = 256 := by norm_num
  have p0 : (2 : Nat) ^ 0 = 1 := by norm_num
  have p32 : (2 : Nat) ^ 32 = 4294967296 := by norm_num
  rw [p24, p16, p8, p0, p32]
  omega

/-- C4 witness: the general theorem instantiated at the four octets of
`192.168.0.1`, then evaluated. -/
theorem ipToInt_wellFormed_quad_witness :
    ipToInt (String.mk (['1', '9', '2'] ++ '.' :: (['1', '6', '8'] ++ '.' :: (['0'] ++ '.' :: ['1'])))) = 3232235521 :=
  (ipToInt_wellFormed_quad ['1', '9', '2'] ['1', '6', '8'] ['0'] ['1']
    (by decide) (by decide) (by decide) (by decide)).1.trans (by decide)

theorem ipFold_lt (segs : List (List Char)) :
    ∀ (i r : Nat), r < 2 ^ 32 → ipFold i segs r < 2 ^ 32 := by
  induction segs with
  | nil => intro i r hr; exact hr
  | cons seg rest ih =>
    intro i r _
    exact ih (i + 1) _ (Nat.mod_lt _ (by norm_num))

/-- C7: `ipToInt` is total (always yielding a value below `2 ^ 32`), and
the malformed line `"256.0.0.1"` wraps around modulo `2 ^ 32` to collide
with the well-formed address `"0.0.0.1"`. -/
theorem ipToInt_total_and_collision :
    (∀ s : String, ipToInt s < 2 ^ 32) ∧
    ipToInt "256.0.0.1" = ipToInt "0.0.0.1" ∧
    validOctet "256".data = false ∧
    validOctet "0".data = true ∧ validOctet "1".data = true ∧
    ipToInt "0.0.0.1" = 1 := by
  refine ⟨?_, by decide, by decide, by decide, by decide, by decide⟩
  intro s
  exact ipFold_lt _ 0 0 (by norm_num)

/-- State of the Go `SegmentedBitmap`: the byte at position `b` of
segment `s` is `segments s b`.  The Go mutexes serialize `MarkIP` calls;
the embedding works on the linearized sequence of calls, so no lock
state is modelled. -/
structure SegmentedBitmap where
  segments : Nat → Nat → Nat

/-- Go `NewSegmentedBitmap`: every byte of every segment is zero. -/
def NewSegmentedBitmap : SegmentedBitmap := ⟨fun _ _ => 0⟩

/-- Byte lengths of the segments allocated by `NewSegmentedBitmap`
(`make([]byte, BytesPerSegment)` once per segment). -/
def newSegmentLengths : List Nat := List.replicate BitmapSegments BytesPerSegment

/-- `segmentIndex := ipInt / (MaxIP / BitmapSegments)` from `MarkIP`. -/
def segmentIndexOf (ipInt : Nat) : Nat := ipInt / (MaxIP / BitmapSegments)

/-- `localIP := ipInt % (MaxIP / BitmapSegments)` from `MarkIP`. -/
def localIPOf (ipInt : Nat) : Nat := ipInt % (MaxIP / BitmapSegments)

/-- `byteIndex := localIP / BitsInByte` from `MarkIP`. -/
def byteIndexOf (ipInt : Nat) : Nat := localIPOf ipInt / BitsInByte

/-- `bitOffset := localIP % BitsInByte` from `MarkIP`. -/
def bitOffsetOf (ipInt : Nat) : Nat := localIPOf ipInt % BitsInByte

/-- The test `sb.segments[segmentIndex][byteIndex] & (1 << bitOffset) != 0`
from `MarkIP`. -/
def testIP (sb : SegmentedBitmap) (ipInt : Nat) : Bool :=
  (sb.segments (segmentIndexOf ipInt) (byteIndexOf ipInt)) &&& (1 <<< bitOffsetOf ipInt) != 0

/-- Go `MarkIP`: returns `false` and leaves the bitmap unchanged when
the bit is already set, otherwise sets the single target bit and returns
`true`. -/
def MarkIP (sb : SegmentedBitmap) (ipInt : Nat) : Bool × SegmentedBitmap :=
  if testIP sb ipInt then (false, sb)
  else
    (true,
      ⟨fun s b =>
        if s = segmentIndexOf ipInt ∧ b = byteIndexOf ipInt then
          sb.segments s b ||| (1 <<< bitOffsetOf ipInt)
        else sb.segments s b⟩)

/-- A sequence of `MarkIP` calls, applied left to right. -/
def markSeq (calls : List Nat) (sb : SegmentedBitmap) : SegmentedBitmap :=
  calls.foldl (fun s c => (MarkIP s c).2) sb

theorem testIP_eq_testBit (sb : SegmentedBitmap) (o : Nat) :
    testIP sb o =
      (sb.segments (segmentIndexOf o) (byteIndexOf o)).testBit (bitOffsetOf o) := by
  unfold testIP
  rw [Nat.one_shiftLeft, Nat.and_two_pow]
  have hp : (2 : Nat) ^ bitOffsetOf o ≠ 0 := pow_ne_zero _ (by norm_num)
  cases h : (sb.segments (segmentIndexOf o) (byteIndexOf o)).testBit (bitOffsetOf o) <;>
    simp [h, hp]

theorem triple_inj (x o : Nat)
    (hs : segmentIndexOf x = segmentIndexOf o)
    (hb : byteIndexOf x = byteIndexOf o)
    (hk : bitOffsetOf x = bitOffsetOf o) : x = o := by
  simp only [segmentIndexOf, byteIndexOf, bitOffsetOf, localIPOf] at hs hb hk
  have hM : MaxIP / BitmapSegments = 16777216 := by decide
  rw [hM] at hs hb hk
  have hB : BitsInByte = 8 := rfl
  rw [hB] at hb hk
  omega

theorem markIP_fst (sb : SegmentedBitmap) (o : Nat) :
    (MarkIP sb o).1 = !testIP sb o := by
  unfold MarkIP
  cases h : testIP sb o <;> simp [h]

theorem testIP_markIP (sb : SegmentedBitmap) (o x : Nat) :
    testIP (MarkIP sb o).2 x = (testIP sb x || x == o) := by
  by_cases hset : testIP sb o = true
  · have hstate : (MarkIP sb o).2 = sb := by unfold MarkIP; rw [if_pos hset]
    rw [hstate]
    by_cases hxo : x = o
    · subst hxo; simp [hset]
    · simp [hxo]
  · have hstate : (MarkIP sb o).2 = ⟨fun s b =>
        if s = segmentIndexOf o ∧ b = byteIndexOf o then
          sb.segments s b ||| (1 <<< bitOffsetOf o)
        else sb.segments s b⟩ := by
      unfold MarkIP
      rw [if_neg hset]
    rw [hstate]
    by_cases hsb : segmentIndexOf x = segmentIndexOf o ∧ byteIndexOf x = byteIndexOf o
    · rw [testIP_eq_testBit, testIP_eq_testBit]
      show (if segmentIndexOf x = segmentIndexOf o ∧ byteIndexOf x = byteIndexOf o then
          sb.segments (segmentIndexOf x) (byteIndexOf x) ||| (1 <<< bitOffsetOf o)
        else sb.segments (segmentIndexOf x) (byteIndexOf x)).testBit (bitOffsetOf x) = _
      rw [if_pos hsb, Nat.one_shiftLeft, Nat.testBit_or]
      by_cases hko : bitOffsetOf x = bitOffsetOf o
      · have hxo : x = o := triple_inj x o hsb.1 hsb.2 hko
        subst hxo
        simp [Nat.testBit_two_pow_self, hko]
      · have hne : x ≠ o := fun hxo => hko (by rw [hxo])
        rw [Nat.testBit_two_pow_of_ne (fun hoe => hko hoe.symm)]
        simp [hne]
    · have hne : x ≠ o := fun hxo => hsb (by rw [hxo]; exact ⟨rfl, rfl⟩)
      rw [testIP_eq_testBit, testIP_eq_testBit]
      show (if segmentIndexOf x = segmentIndexOf o ∧ byteIndexOf x = byteIndexOf o then
          sb.segments (segmentIndexOf x) (byteIndexOf x) ||| (1 <<< bitOffsetOf o)
        else sb.segments (segmentIndexOf x) (byteIndexOf x)).testBit (bitOffsetOf x) = _
      rw [if_neg hsb]
      simp [hne]

theorem testIP_new (o : Nat) : testIP NewSegmentedBitmap o = false := by
  rw [testIP_eq_testBit]
  show (0 : Nat).testBit (bitOffsetOf o) = false
  simp [Nat.testBit]

theorem testIP_markSeq_of_testIP (calls : List Nat) :
    ∀ sb : SegmentedBitmap, ∀ o : Nat, testIP sb o = true →
      testIP (markSeq calls sb) o = true := by
  induction calls with
  | nil => intro sb o h; exact h
  | cons c rest ih =>
    intro sb o h
    have hstep : testIP (MarkIP sb c).2 o = true := by
      rw [testIP_markIP]; simp [h]
    exact ih (MarkIP sb c).2 o hstep

/-- C2: on a fresh bitmap the first `MarkIP o` returns `true`, and after
any further sequence of `MarkIP` calls a repeated `MarkIP o` returns
`false`. -/
theorem markIP_first_true_then_false (o : Nat) (ho : o < 2 ^ 32) :
    (MarkIP NewSegmentedBitmap o).1 = true ∧
    ∀ calls : List Nat, (∀ c ∈ calls, c < 2 ^ 32) →
      (MarkIP (markSeq calls (MarkIP NewSegmentedBitmap o).2) o).1 = false := by
  constructor
  · rw [markIP_fst, testIP_new]; rfl
  · intro calls _
    have hself : testIP (MarkIP NewSegmentedBitmap o).2 o = true := by
      rw [testIP_markIP]; simp
    rw [markIP_fst, testIP_markSeq_of_testIP calls _ o hself]
    rfl

/-- C2 witness: ordinal `3232235521` on a fresh bitmap, then two other
marks and a duplicate mark. -/
theorem markIP_first_true_then_false_witness :
    (MarkIP NewSegmentedBitmap 3232235521).1 = true ∧
    (MarkIP (markSeq [1, 3232235521]
        (MarkIP NewSegmentedBitmap 3232235521).2) 3232235521).1 = false := by
  have h := markIP_first_true_then_false 3232235521 (by norm_num)
  exact ⟨h.1, h.2 [1, 3232235521] (by intro c hc; fin_cases hc <;> norm_num)⟩

/-- C5: with 256 segments, each ordinal below `2 ^ 32` is sent to an
in-bounds `(segmentIndex, byteIndex, bitOffset)` triple, distinct
ordinals get distinct triples, and every in-bounds triple is hit, so the
segment ranges partition the ordinal space exactly. -/
theorem segment_triples_partition :
    (∀ o : Nat, o < 2 ^ 32 →
      segmentIndexOf o < BitmapSegments ∧ byteIndexOf o < BytesPerSegment ∧
        bitOffsetOf o < BitsInByte) ∧
    (∀ o₁ o₂ : Nat, o₁ < 2 ^ 32 → o₂ < 2 ^ 32 →
      segmentIndexOf o₁ = segmentIndexOf o₂ → byteIndexOf o₁ = byteIndexOf o₂ →
      bitOffsetOf o₁ = bitOffsetOf o₂ → o₁ = o₂) ∧
    (∀ s b k : Nat, s < BitmapSegments → b < BytesPerSegment → k < BitsInByte →
      ∃ o : Nat, o < 2 ^ 32 ∧ segmentIndexOf o = s ∧ byteIndexOf o = b ∧
        bitOffsetOf o = k) := by
  have hM : MaxIP / BitmapSegments = 16777216 := by decide
  have hS : BitmapSegments = 256 := rfl
  have hB : BytesPerSegment = 2097152 := by decide
  have hb : BitsInByte = 8 := rfl
  refine ⟨?_, ?_, ?_⟩
  · intro o hlt
    unfold segmentIndexOf byteIndexOf bitOffsetOf localIPOf
    rw [hM, hS, hB, hb]
    have h32 : (2 : Nat) ^ 32 = 4294967296 := by norm_num
    rw [h32] at hlt
    omega
  · intro o₁ o₂ _ _ hs hbb hk
    exact triple_inj o₁ o₂ hs hbb hk
  · intro s b k hsl hbl hkl
    rw [hS] at hsl
    rw [hB] at hbl
    rw [hb] at hkl
    refine ⟨s * 16777216 + b * 8 + k, ?_, ?_, ?_, ?_⟩
    · have h32 : (2 : Nat) ^ 32 = 4294967296 := by norm_num
      rw [h32]; omega
    · unfold segmentIndexOf; rw [hM]; omega
    · unfold byteIndexOf localIPOf; rw [hM, hb]; omega
    · unfold bitOffsetOf localIPOf; rw [hM, hb]; omega

/-- C5 witness: the bounds at ordinal `4294967295` and the surjectivity
triple `(0, 0, 0)`. -/
theorem segment_triples_partition_witness :
    (segmentIndexOf 4294967295 < BitmapSegments ∧
      byteIndexOf 4294967295 < BytesPerSegment ∧
      bitOffsetOf 4294967295 < BitsInByte) ∧
    ∃ o : Nat, o < 2 ^ 32 ∧ segmentIndexOf o = 0 ∧ byteIndexOf o = 0 ∧
      bitOffsetOf o = 0 :=
  ⟨segment_triples_partition.1 4294967295 (by norm_num),
    segment_triples_partition.2.2 0 0 0 (by decide) (by decide) (by decide)⟩

/-- C8: `NewSegmentedBitmap` allocates 256 segments whose byte lengths
sum to `2 ^ 29` bytes = `2 ^ 32 / 8` bytes (512 MiB), a constant that
depends on no input. -/
theorem newSegmentedBitmap_allocation :
    newSegmentLengths.length = 256 ∧
    newSegmentLengths.sum = 2 ^ 29 ∧
    newSegmentLengths.sum = 2 ^ 32 / 8 ∧
    newSegmentLengths.sum = 536870912 := by
  refine ⟨?_, ?_, ?_, ?_⟩ <;>
    simp [newSegmentLengths, List.sum_replicate, smul_eq_mul] <;> decide

/-- C10: `MarkIP` changes at most the addressed bit — every other byte
of every segment is untouched, and in the addressed byte every other
bit is untouched, whether the call returns `true` or `false`. -/
theorem markIP_frame (sb : SegmentedBitmap) (o : Nat) :
    (∀ s b : Nat, ¬(s = segmentIndexOf o ∧ b = byteIndexOf o) →
      ((MarkIP sb o).2).segments s b = sb.segments s b) ∧
    (∀ k : Nat, k ≠ bitOffsetOf o →
      (((MarkIP sb o).2).segments (segmentIndexOf o) (byteIndexOf o)).testBit k =
        (sb.segments (segmentIndexOf o) (byteIndexOf o)).testBit k) := by
  by_cases hset : testIP sb o = true
  · have hstate : (MarkIP sb o).2 = sb := by unfold MarkIP; rw [if_pos hset]
    rw [hstate]
    exact ⟨fun _ _ _ => rfl, fun _ _ => rfl⟩
  · have hstate : (MarkIP sb o).2 = ⟨fun s b =>
        if s = segmentIndexOf o ∧ b = byteIndexOf o then
          sb.segments s b ||| (1 <<< bitOffsetOf o)
        else sb.segments s b⟩ := by
      unfold MarkIP
      rw [if_neg hset]
    rw [hstate]
    constructor
    · intro s b hne
      show (if s = segmentIndexOf o ∧ b = byteIndexOf o then _ else sb.segments s b) = _
      rw [if_neg hne]
    · intro k hk
      show (if segmentIndexOf o = segmentIndexOf o ∧ byteIndexOf o = byteIndexOf o then
          sb.segments (segmentIndexOf o) (byteIndexOf o) ||| (1 <<< bitOffsetOf o)
        else _).testBit k = _
      rw [if_pos ⟨rfl, rfl⟩, Nat.one_shiftLeft, Nat.testBit_or,
        Nat.testBit_two_pow_of_ne (fun he => hk he.symm)]
      simp

/-- C10 witness: marking ordinal `0` on a fresh bitmap leaves byte
`(1, 2)` and bit `3` of byte `(0, 0)` unchanged. -/
theorem markIP_frame_witness :
    ((MarkIP NewSegmentedBitmap 0).2).segments 1 2 =
      NewSegmentedBitmap.segments 1 2 ∧
    (((MarkIP NewSegmentedBitmap 0).2).segments (segmentIndexOf 0)
        (byteIndexOf 0)).testBit 3 =
      (NewSegmentedBitmap.segments (segmentIndexOf 0) (byteIndexOf 0)).testBit 3 :=
  ⟨(markIP_frame NewSegmentedBitmap 0).1 1 2 (by decide),
    (markIP_frame NewSegmentedBitmap 0).2 3 (by decide)⟩

/-- Body of the `processBatch` loop: skip empty lines, otherwise decode
the line and mark it, incrementing the count on a fresh mark. -/
def lineStep (acc : Nat × SegmentedBitmap) (ip : String) : Nat × SegmentedBitmap :=
  if ip = "" then acc
  else
    let m := MarkIP acc.2 (ipToInt ip)
    (if m.1 then acc.1 + 1 else acc.1, m.2)

/-- Go `processBatch`: fold `lineStep` over the batch starting from
count 0; the returned error is always `nil` (`none`). -/
def processBatch (batch : List String) (sb : SegmentedBitmap) :
    (Nat × Option Unit) × SegmentedBitmap :=
  let r := batch.foldl lineStep (0, sb)
  ((r.1, none), r.2)

/-- The worker pool and aggregator, linearized: process the batches in
order against the shared bitmap and sum the per-batch counts. -/
def processBatches : List (List String) → SegmentedBitmap → Nat × SegmentedBitmap
  | [], sb => (0, sb)
  | b :: bs, sb =>
    let r := processBatch b sb
    let rest := processBatches bs r.2
    (r.1.1 + rest.1, rest.2)

/-- Ordinals of the non-empty lines of an input, in order. -/
def ordList (lines : List String) : List Nat :=
  (lines.filter (fun l => !(l == ""))).map ipToInt

/-- Number of distinct ordinals among the non-empty lines. -/
def distinctCount (lines : List String) : Nat := (ordList lines).toFinset.card
/-- Folding `lineStep` over a list of empty strings changes nothing. -/
theorem foldl_lineStep_all_empty (batch : List String) :
    (∀ l ∈ batch, l = "") → ∀ acc : Nat × SegmentedBitmap,
      batch.foldl lineStep acc = acc := by
  induction batch with
  | nil => intro _ acc; rfl
  | cons l rest ih =>
    intro h acc
    have hl : l = "" := h l (List.mem_cons_self l rest)
    have hrest : ∀ x ∈ rest, x = "" := fun x hx => h x (List.mem_cons_of_mem l hx)
    rw [List.foldl_cons, show lineStep acc l = acc by rw [lineStep, if_pos hl]]
    exact ih hrest acc

/-- C9: a batch of empty strings contributes count 0 with a `nil` error
and leaves the bitmap untouched. -/
theorem processBatch_all_empty (batch : List String) (sb : SegmentedBitmap)
    (h : ∀ l ∈ batch, l = "") :
    processBatch batch sb = ((0, none), sb) := by
  unfold processBatch
  rw [foldl_lineStep_all_empty batch h (0, sb)]

/-- C9 witness: a two-line batch of empty strings on a fresh bitmap. -/
theorem processBatch_all_empty_witness :
    processBatch ["", ""] NewSegmentedBitmap = ((0, none), NewSegmentedBitmap) :=
  processBatch_all_empty ["", ""] NewSegmentedBitmap (by
    intro l hl
    fin_cases hl <;> rfl)

/-- Folding `lineStep` from count `n` gives `n` plus the count from 0,
with the same final bitmap. -/
theorem foldl_lineStep_shift (lines : List String) :
    ∀ (n : Nat) (sb : SegmentedBitmap),
      lines.foldl lineStep (n, sb) =
        (n + (lines.foldl lineStep (0, sb)).1, (lines.foldl lineStep (0, sb)).2) := by
  induction lines with
  | nil => intro n sb; simp
  | cons l rest ih =>
    intro n sb
    by_cases hl : l = ""
    · rw [List.foldl_cons, List.foldl_cons,
        show lineStep (n, sb) l = (n, sb) by rw [lineStep, if_pos hl],
        show lineStep (0, sb) l = (0, sb) by rw [lineStep, if_pos hl]]
      exact ih n sb
    · rw [List.foldl_cons, List.foldl_cons,
        show lineStep (n, sb) l =
          ((if (MarkIP sb (ipToInt l)).1 then n + 1 else n), (MarkIP sb (ipToInt l)).2) by
            rw [lineStep, if_neg hl],
        show lineStep (0, sb) l =
          ((if (MarkIP sb (ipToInt l)).1 then 0 + 1 else 0), (MarkIP sb (ipToInt l)).2) by
            rw [lineStep, if_neg hl]]
      cases hm : (MarkIP sb (ipToInt l)).1
      · simp only [Bool.false_eq_true, ite_false]
        rw [ih n (MarkIP sb (ipToInt l)).2]
      · simp only [ite_true]
        rw [ih (n + 1) (MarkIP sb (ipToInt l)).2, ih (0 + 1) (MarkIP sb (ipToInt l)).2]
        simp only [Prod.mk.injEq]
        exact ⟨by omega, by trivial⟩

/-- Invariant of the `processBatch` fold: the count is the number of
distinct ordinals of the processed non-empty lines that were not yet set
in the starting bitmap, and the final bitmap has exactly the starting
bits plus those ordinals. -/
theorem foldl_lineStep_spec (lines : List String) :
    ∀ sb : SegmentedBitmap,
      (lines.foldl lineStep (0, sb)).1 =
        ((ordList lines).toFinset.filter (fun o => testIP sb o = false)).card ∧
      ∀ x : Nat, testIP (lines.foldl lineStep (0, sb)).2 x =
        (testIP sb x || decide (x ∈ ordList lines)) := by
  induction lines with
  | nil =>
    intro sb
    refine ⟨by simp [ordList], fun x => by simp [ordList]⟩
  | cons l rest ih =>
    intro sb
    by_cases hl : l = ""
    · subst hl
      have hord : ordList ("" :: rest) = ordList rest := by simp [ordList]
      rw [List.foldl_cons, show lineStep (0, sb) "" = (0, sb) from rfl, hord]
      exact ih sb
    · have hord : ordList (l :: rest) = ipToInt l :: ordList rest := by
        simp [ordList, hl]
      have hstep : lineStep (0, sb) l =
          ((if (MarkIP sb (ipToInt l)).1 then 0 + 1 else 0), (MarkIP sb (ipToInt l)).2) := by
        rw [lineStep, if_neg hl]
      rw [List.foldl_cons, hstep, hord]
      have hshift := foldl_lineStep_shift rest
        (if (MarkIP sb (ipToInt l)).1 then 0 + 1 else 0) (MarkIP sb (ipToInt l)).2
      rw [hshift]
      have ihs := ih (MarkIP sb (ipToInt l)).2
      have hfilter :
          (ordList rest).toFinset.filter
              (fun x => testIP (MarkIP sb (ipToInt l)).2 x = false) =
            ((ordList rest).toFinset.filter
              (fun x => testIP sb x = false)).erase (ipToInt l) := by
        have hcongr :
            (ordList rest).toFinset.filter
                (fun x => testIP (MarkIP sb (ipToInt l)).2 x = false) =
              (ordList rest).toFinset.filter
                (fun x => testIP sb x = false ∧ x ≠ ipToInt l) := by
          apply Finset.filter_congr
          intro x _
          rw [testIP_markIP]
          constructor
          · intro hx
            have hx' := hx
            simp only [Bool.or_eq_false_iff] at hx'
            exact ⟨hx'.1, fun hxo => by simp [hxo] at hx'⟩
          · intro hx
            have hne : (x == ipToInt l) = false := by
              simp only [beq_eq_false_iff_ne, ne_eq]
              exact hx.2
            rw [hx.1, hne]
            rfl
        rw [hcongr, ← Finset.filter_filter, Finset.filter_ne']
      constructor
      · rw [ihs.1, hfilter, List.toFinset_cons, Finset.filter_insert]
        cases hm : (MarkIP sb (ipToInt l)).1 with
        | true =>
          have hunset : testIP sb (ipToInt l) = false := by
            have hf := markIP_fst sb (ipToInt l)
            rw [hm] at hf
            cases htest : testIP sb (ipToInt l)
            · rfl
            · rw [htest] at hf; exact absurd hf.symm (by simp)
          rw [if_pos hunset]
          set T := (ordList rest).toFinset.filter (fun x => testIP sb x = false) with hT
          by_cases hoT : ipToInt l ∈ T
          · rw [Finset.insert_eq_self.mpr hoT]
            have hc := Finset.card_erase_add_one hoT
            simp only [ite_true]
            omega
          · rw [Finset.card_insert_of_not_mem hoT, Finset.erase_eq_of_not_mem hoT]
            simp
            omega
        | false =>
          have hset : testIP sb (ipToInt l) = true := by
            have hf := markIP_fst sb (ipToInt l)
            rw [hm] at hf
            cases htest : testIP sb (ipToInt l)
            · rw [htest] at hf; exact absurd hf.symm (by simp)
            · rfl
          set T := (ordList rest).toFinset.filter (fun x => testIP sb x = false) with hT
          have hno : ipToInt l ∉ T := by
            rw [hT]
            intro hmem
            have hp := (Finset.mem_filter.mp hmem).2
            rw [hset] at hp
            exact absurd hp (by simp)
          have hcond : ¬(testIP sb (ipToInt l) = false) := by
            rw [hset]
            intro hc
            exact Bool.noConfusion hc
          rw [if_neg hcond, Finset.erase_eq_of_not_mem hno]
          simp
      · intro x
        rw [ihs.2 x, testIP_markIP]
        cases htx : testIP sb x <;> by_cases hxo : x = ipToInt l <;>
          simp [hxo, List.mem_cons]

/-- The linearized pipeline equals one fold over the concatenation of
the batches: the per-batch counts add up and the bitmap is threaded
through. -/
theorem processBatches_eq_join (bs : List (List String)) :
    ∀ sb : SegmentedBitmap,
      (processBatches bs sb).1 = (bs.join.foldl lineStep (0, sb)).1 ∧
      (processBatches bs sb).2 = (bs.join.foldl lineStep (0, sb)).2 := by
  induction bs with
  | nil => intro sb; exact ⟨rfl, rfl⟩
  | cons b rest ih =>
    intro sb
    have hjoin : (b :: rest).join = b ++ rest.join := rfl
    rw [hjoin]
    have happ : (b ++ rest.join).foldl lineStep (0, sb) =
        rest.join.foldl lineStep (b.foldl lineStep (0, sb)) := List.foldl_append ..
    have heta : b.foldl lineStep (0, sb) =
        ((b.foldl lineStep (0, sb)).1, (b.foldl lineStep (0, sb)).2) := rfl
    have hshift := foldl_lineStep_shift rest.join
      (b.foldl lineStep (0, sb)).1 (b.foldl lineStep (0, sb)).2
    have ihb := ih (b.foldl lineStep (0, sb)).2
    constructor
    · show (b.foldl lineStep (0, sb)).1 +
        (processBatches rest (b.foldl lineStep (0, sb)).2).1 = _
      rw [happ, heta, hshift, ihb.1]
    · show (processBatches rest (b.foldl lineStep (0, sb)).2).2 = _
      rw [happ, heta, hshift, ihb.2]

/-- From a fresh bitmap, the aggregate count is the number of distinct
ordinals of the non-empty lines of all batches together. -/
theorem processBatches_fresh_count (bs : List (List String)) :
    (processBatches bs NewSegmentedBitmap).1 = distinctCount bs.join := by
  rw [(processBatches_eq_join bs NewSegmentedBitmap).1,
    (foldl_lineStep_spec bs.join NewSegmentedBitmap).1]
  unfold distinctCount
  congr 1
  apply Finset.filter_true_of_mem
  intro x _
  exact testIP_new x

/-- C3: the aggregate of the per-batch `processBatch` counts from a
fresh shared bitmap equals the number of distinct ordinals of the
non-empty input lines, for every partition of the input into batches,
and is therefore the same for any two batchings of the same multiset of
lines. -/
theorem processBatches_distinct_count :
    (∀ bs : List (List String),
      (processBatches bs NewSegmentedBitmap).1 = distinctCount bs.join) ∧
    ∀ bs₁ bs₂ : List (List String), bs₁.join.Perm bs₂.join →
      (processBatches bs₁ NewSegmentedBitmap).1 =
        (processBatches bs₂ NewSegmentedBitmap).1 := by
  refine ⟨processBatches_fresh_count, ?_⟩
  intro bs₁ bs₂ hperm
  rw [processBatches_fresh_count, processBatches_fresh_count]
  unfold distinctCount ordList
  rw [List.toFinset_eq_of_perm _ _ ((hperm.filter _).map ipToInt)]

/-- C3 witness: the same two lines in one batch or two. -/
theorem processBatches_distinct_count_witness :
    (processBatches [["8.8.8.8"], ["1.1.1.1"]] NewSegmentedBitmap).1 =
      (processBatches [["8.8.8.8", "1.1.1.1"]] NewSegmentedBitmap).1 :=
  processBatches_distinct_count.2 [["8.8.8.8"], ["1.1.1.1"]]
    [["8.8.8.8", "1.1.1.1"]] (List.Perm.refl _)

/-- Outcome a reader delivers once its content is exhausted: normal end
of stream (`io.EOF`) or any other read error. -/
inductive ReadErr where
  | eof
  | other
deriving DecidableEq

/-- The byte stream handed to `readBatch`: the characters it will
deliver, followed by the error (`eof` or `other`) that ends it. -/
structure InputStream where
  content : List Char
  endErr : ReadErr
deriving DecidableEq

/-- Whitespace recognized by Go `strings.TrimSpace` on the byte range of
the inputs: ASCII space characters plus NEL and NBSP. -/
def goIsSpace (c : Char) : Bool :=
  c == ' ' || c == '\t' || c == '\n' || c == '\x0b' || c == '\x0c' || c == '\r' ||
  c.toNat == 133 || c.toNat == 160

/-- Go `strings.TrimSpace`: drop trailing, then leading, whitespace. -/
def trimSpace (l : List Char) : List Char :=
  ((l.reverse.dropWhile goIsSpace).reverse).dropWhile goIsSpace

/-- Split off the leading line up to and including the first newline,
or `none` when the content holds no newline. -/
def takeLine : List Char → Option (List Char × List Char)
  | [] => none
  | c :: rest =>
    if c = '\n' then some ([c], rest)
    else
      match takeLine rest with
      | none => none
      | some r => some (c :: r.1, r.2)

/-- Go `reader.ReadString('\n')`: data up to and including the first
newline with a `nil` error, or — when the stream ends first — all
remaining data together with the stream's terminal error. -/
def readString (s : InputStream) : (List Char × Option ReadErr) × InputStream :=
  match takeLine s.content with
  | some r => ((r.1, none), ⟨r.2, s.endErr⟩)
  | none => ((s.content, some s.endErr), ⟨[], s.endErr⟩)

/-- Loop of Go `readBatch` (`for len(batch) < BatchSize`), with the
remaining capacity `BatchSize - len(batch)` as fuel.  On an error it
returns the batch collected so far only for `io.EOF` with a non-empty
batch; otherwise it returns the error and discards the batch.  The
line data delivered together with an error is discarded in both cases,
exactly as in the Go code. -/
def readBatchAux : InputStream → List String → Nat → (Except ReadErr (List String)) × InputStream
  | reader, batch, 0 => (Except.ok batch, reader)
  | reader, batch, fuel + 1 =>
    let r := readString reader
    match r.1.2 with
    | some e =>
      if e = ReadErr.eof ∧ batch ≠ [] then (Except.ok batch, r.2)
      else (Except.error e, r.2)
    | none => readBatchAux r.2 (batch ++ [String.mk (trimSpace r.1.1)]) fuel

/-- Go `readBatch`: collect up to `BatchSize` trimmed lines. -/
def readBatch (reader : InputStream) : (Except ReadErr (List String)) × InputStream :=
  readBatchAux reader [] BatchSize

/-- Producer loop of `countUniqueIPs`: emit batches until `readBatch`
reports `io.EOF` or any other error (both stop production; a batch is
emitted only on a `nil` error).  Fuel bounds the iteration count; every
emitted batch consumes at least one character, so `content.length + 1`
iterations always suffice. -/
def produceBatchesAux : InputStream → Nat → List (List String)
  | _, 0 => []
  | s, fuel + 1 =>
    match readBatch s with
    | (Except.ok batch, s2) => batch :: produceBatchesAux s2 fuel
    | (Except.error _, _) => []

/-- All batches the producer goroutine sends for a given stream. -/
def produceBatches (s : InputStream) : List (List String) :=
  produceBatchesAux s (s.content.length + 1)

/-- Go `countUniqueIPs` after a successful open: the workers process the
produced batches against one fresh shared bitmap, the aggregator sums
the per-batch counts, and the function always returns a `nil` error. -/
def countUniqueIPs (s : InputStream) : Nat × Option ReadErr :=
  ((processBatches (produceBatches s) NewSegmentedBitmap).1, none)

set_option maxRecDepth 8000 in
/-- C1 (failing input): on the stream `"1.1.1.1\n2.2.2.2"` that ends
normally without a trailing newline, `readBatch` returns the final
batch without the unterminated line `"2.2.2.2"`, and `countUniqueIPs`
counts 1 even though the input holds two distinct addresses. -/
theorem countUniqueIPs_drops_final_unterminated_line :
    countUniqueIPs ⟨("1.1.1.1\n2.2.2.2").data, ReadErr.eof⟩ = (1, none) ∧
    (readBatch ⟨("1.1.1.1\n2.2.2.2").data, ReadErr.eof⟩).1 = Except.ok ["1.1.1.1"] ∧
    distinctCount ["1.1.1.1", "2.2.2.2"] = 2 := by
  refine ⟨by rfl, by rfl, by decide⟩

/-- Encode a list of newline-free lines as a stream content in which
every line is terminated by a newline. -/
def encodeLines : List (List Char) → List Char
  | [] => []
  | l :: ls => l ++ '\n' :: encodeLines ls

theorem takeLine_encode (l : List Char) (rest : List Char) (h : '\n' ∉ l) :
    takeLine (l ++ '\n' :: rest) = some (l ++ ['\n'], rest) := by
  induction l with
  | nil => simp [takeLine]
  | cons c l' ih =>
    have hc : ¬ c = '\n' := fun hc => h (hc ▸ List.mem_cons_self c l')
    have hl' : '\n' ∉ l' := fun hm => h (List.mem_cons_of_mem c hm)
    simp only [List.cons_append, takeLine, if_neg hc, List.append_eq, ih hl']

theorem trimSpace_append_newline (l : List Char) :
    trimSpace (l ++ ['\n']) = trimSpace l := by
  unfold trimSpace
  rw [List.reverse_append]
  show ((('\n' :: l.reverse).dropWhile goIsSpace).reverse).dropWhile goIsSpace = _
  rw [List.dropWhile_cons]
  simp [goIsSpace]

theorem take_add_append {α : Type} (n : Nat) :
    ∀ (m : Nat) (l : List α), l.take (n + m) = l.take n ++ (l.drop n).take m := by
  induction n with
  | zero => intro m l; simp
  | succ n ih =>
    intro m l
    cases l with
    | nil => simp
    | cons a l' =>
      rw [show n + 1 + m = (n + m) + 1 by omega]
      rw [List.take_succ_cons, List.take_succ_cons, List.drop_succ_cons,
        List.cons_append, ih m l']

theorem readBatchAux_encode (fuel : Nat) :
    ∀ (ls : List (List Char)) (acc : List String), (∀ l ∈ ls, '\n' ∉ l) →
      readBatchAux ⟨encodeLines ls, ReadErr.other⟩ acc fuel =
        if fuel ≤ ls.length then
          (Except.ok (acc ++ (ls.take fuel).map (fun l => String.mk (trimSpace l))),
            ⟨encodeLines (ls.drop fuel), ReadErr.other⟩)
        else (Except.error ReadErr.other, ⟨[], ReadErr.other⟩) := by
  induction fuel with
  | zero =>
    intro ls acc _
    simp [readBatchAux]
  | succ fuel ih =>
    intro ls acc h
    cases ls with
    | nil =>
      rw [if_neg (by simp)]
      show readBatchAux ⟨encodeLines [], ReadErr.other⟩ acc (fuel + 1) = _
      simp [readBatchAux, readString, encodeLines, takeLine]
    | cons l ls' =>
      have hl : '\n' ∉ l := h l (List.mem_cons_self l ls')
      have hls' : ∀ x ∈ ls', '\n' ∉ x := fun x hx => h x (List.mem_cons_of_mem l hx)
      have hread : readString ⟨encodeLines (l :: ls'), ReadErr.other⟩ =
          ((l ++ ['\n'], none), ⟨encodeLines ls', ReadErr.other⟩) := by
        show readString ⟨l ++ '\n' :: encodeLines ls', ReadErr.other⟩ = _
        unfold readString
        rw [show (InputStream.mk (l ++ '\n' :: encodeLines ls') ReadErr.other).content =
          l ++ '\n' :: encodeLines ls' from rfl, takeLine_encode l _ hl]
      show readBatchAux ⟨encodeLines (l :: ls'), ReadErr.other⟩ acc (fuel + 1) = _
      rw [readBatchAux, hread]
      show readBatchAux ⟨encodeLines ls', ReadErr.other⟩
        (acc ++ [String.mk (trimSpace (l ++ ['\n']))]) fuel = _
      rw [trimSpace_append_newline, ih ls' (acc ++ [String.mk (trimSpace l)]) hls']
      by_cases hf : fuel ≤ ls'.length
      · rw [if_pos hf, if_pos (by simp; omega)]
        rw [List.take_succ_cons, List.drop_succ_cons, List.map_cons]
        simp
      · rw [if_neg hf, if_neg (by simp; omega)]

theorem join_cons_eq (a : List String) (l : List (List String)) :
    (a :: l).join = a ++ l.join := rfl

theorem produceBatchesAux_encode_join (g : Nat) :
    ∀ ls : List (List Char), (∀ l ∈ ls, '\n' ∉ l) →
      ∃ k : Nat, (produceBatchesAux ⟨encodeLines ls, ReadErr.other⟩ g).join =
        (ls.take k).map (fun l => String.mk (trimSpace l)) := by
  induction g with
  | zero => intro ls _; exact ⟨0, by simp [produceBatchesAux]⟩
  | succ g ih =>
    intro ls h
    have hrb := readBatchAux_encode BatchSize ls [] h
    by_cases hle : BatchSize ≤ ls.length
    · rw [if_pos hle] at hrb
      have hd : ∀ x ∈ ls.drop BatchSize, '\n' ∉ x :=
        fun x hx => h x (List.drop_subset BatchSize ls hx)
      obtain ⟨k, hk⟩ := ih (ls.drop BatchSize) hd
      refine ⟨BatchSize + k, ?_⟩
      show (produceBatchesAux ⟨encodeLines ls, ReadErr.other⟩ (g + 1)).join = _
      rw [produceBatchesAux, readBatch, hrb]
      show ((([] : List String) ++
        (ls.take BatchSize).map (fun l => String.mk (trimSpace l))) ::
        produceBatchesAux ⟨encodeLines (ls.drop BatchSize), ReadErr.other⟩ g).join = _
      rw [join_cons_eq, hk, List.nil_append, take_add_append BatchSize k ls,
        List.map_append]
    · rw [if_neg hle] at hrb
      refine ⟨0, ?_⟩
      show (produceBatchesAux ⟨encodeLines ls, ReadErr.other⟩ (g + 1)).join = _
      rw [produceBatchesAux, readBatch, hrb]
      simp

set_option maxRecDepth 8000 in
/-- C6 counterexample: the stream delivers the complete line
`"1.1.1.1\n"` and then fails with a non-EOF read error.  That line was
read successfully — the failing `readBatch` call discards the batch it
had accumulated — yet `countUniqueIPs` returns 0, not the unique count
1 of the successfully-read prefix. -/
theorem countUniqueIPs_read_error_drops_read_lines :
    countUniqueIPs ⟨("1.1.1.1\n").data, ReadErr.other⟩ = (0, none) ∧
    distinctCount ["1.1.1.1"] = 1 := by
  refine ⟨by rfl, by decide⟩

/-- C6 (amended): on a mid-stream read error the run is not marked as
failed — `countUniqueIPs` returns a `nil` error and the unique count
over a prefix of the input lines: the batches completed before the
error; lines accumulated in the batch aborted by the error are
discarded. -/
theorem countUniqueIPs_read_error_partial (ls : List (List Char))
    (h : ∀ l ∈ ls, '\n' ∉ l) :
    ∃ k : Nat,
      countUniqueIPs ⟨encodeLines ls, ReadErr.other⟩ =
        (distinctCount ((ls.take k).map (fun l => String.mk (trimSpace l))), none) := by
  obtain ⟨k, hk⟩ :=
    produceBatchesAux_encode_join ((encodeLines ls).length + 1) ls h
  refine ⟨k, ?_⟩
  show ((processBatches (produceBatches ⟨encodeLines ls, ReadErr.other⟩)
    NewSegmentedBitmap).1, (none : Option ReadErr)) = _
  rw [processBatches_fresh_count]
  show (distinctCount (produceBatchesAux ⟨encodeLines ls, ReadErr.other⟩
    ((encodeLines ls).length + 1)).join, (none : Option ReadErr)) = _
  rw [hk]

/-- C6 witness: a one-line stream ended by a read error. -/
theorem countUniqueIPs_read_error_partial_witness :
    ∃ k : Nat,
      countUniqueIPs ⟨encodeLines ["1.1.1.1".data], ReadErr.other⟩ =
        (distinctCount (((["1.1.1.1".data].take k)).map
          (fun l => String.mk (trimSpace l))), none) :=
  countUniqueIPs_read_error_partial ["1.1.1.1".data] (by decide)
